import Mathlib

/-!
Shallow embedding of the ubolt wrapper package (src/ubolt.go) over a model of
the underlying bbolt storage engine.

The wrapper code under src/ is translated directly: Put, PutV, GetE, Get,
Delete, DeleteBucket, GetKeysE, GetKeys, ForEach, Scan, Encode and itob.
The storage engine itself (bbolt) is not part of this repository; it is
modelled from the spec's interface boundary: each bucket is a byte-ordered
keyspace (a list of key/value pairs sorted by byte-lexicographic key order)
together with a 64-bit unsigned sequence counter, and the engine exposes
lookup, ordered insert, delete, cursor seek/walk and NextSequence.

Go byte slices distinguish nil from a non-nil empty slice; where that
distinction is load-bearing (the key argument of Put, the value returned by
GetE/Get) it is modelled with Option: `none` is Go nil.
-/

namespace Ubolt

/-- Byte strings: lists of byte values. -/
abbrev Bytes := List Nat

/-- Byte-lexicographic strict order on byte strings, as in bytes.Compare < 0.
Modelled from the spec: ordering of keys "is the byte-lexicographic order of
the raw bytes". -/
def lexLt : Bytes → Bytes → Bool
  | [], [] => false
  | [], _ :: _ => true
  | _ :: _, [] => false
  | a :: as, b :: bs => if a < b then true else if b < a then false else lexLt as bs

/-- bytes.HasPrefix: `startsWith k p` holds when k starts with p byte-for-byte. -/
def startsWith : Bytes → Bytes → Bool
  | _, [] => true
  | [], _ :: _ => false
  | a :: as, b :: bs => a == b && startsWith as bs

/-- Error values returned by the wrapper layer. `bucketNotFound` and
`keyNotFound` are the layer's typed errors (ErrBucketNotFound,
ErrKeyNotFound); `engineErr` is a sentinel error surfaced unmodified from the
storage engine (such as bbolt's errors.New("bucket not found"));
`codecErr` is an error from the gob codec. -/
inductive UErr where
  | bucketNotFound (bucket : Bytes)
  | keyNotFound (bucket : Bytes) (key : Bytes)
  | engineErr (msg : String)
  | codecErr (msg : String)
deriving DecidableEq

/-- Go errors.Is for the error values above: equality, or a match through the
Is methods of ErrBucketNotFound / ErrKeyNotFound, which test only the dynamic
type of the target and ignore the payload. The engine sentinel and codec
errors define no Is method. -/
def errorsIs (e target : UErr) : Bool :=
  if e = target then true
  else
    match e, target with
    | .bucketNotFound _, .bucketNotFound _ => true
    | .keyNotFound _ _, .keyNotFound _ _ => true
    | _, _ => false

/-- True exactly for the layer's typed ErrBucketNotFound. -/
def UErr.isBucketMissing : UErr → Bool
  | .bucketNotFound _ => true
  | _ => false

/-- True exactly for codec (gob) errors. -/
def UErr.isCodec : UErr → Bool
  | .codecErr _ => true
  | _ => false

/-- Modelled from the spec: one bucket of the engine, "an ordered byte
keyspace" (pairs sorted by byte-lexicographic key order) together with "one
monotonically increasing 64-bit unsigned counter per bucket". -/
structure BoltBucket where
  pairs : List (Bytes × Bytes)
  seq : Nat
deriving DecidableEq

/-- Modelled from the spec: engine point lookup of a key inside a bucket;
none when the key is absent. -/
def getPair (key : Bytes) : List (Bytes × Bytes) → Option Bytes
  | [] => none
  | (k, v) :: rest => if key = k then some v else getPair key rest

/-- Modelled from the spec: engine put, an order-preserving insert that fully
overwrites the value when the key already exists. -/
def putPairs (key val : Bytes) : List (Bytes × Bytes) → List (Bytes × Bytes)
  | [] => [(key, val)]
  | (k, v) :: rest =>
    if lexLt key k then (key, val) :: (k, v) :: rest
    else if key = k then (key, val) :: rest
    else (k, v) :: putPairs key val rest

/-- Modelled from the spec: engine delete of a key; removing an absent key
changes nothing. -/
def delPairs (key : Bytes) (l : List (Bytes × Bytes)) : List (Bytes × Bytes) :=
  l.filter (fun kv => kv.1 != key)

/-- Modelled from the spec: engine state, a store of named buckets. -/
structure DB where
  buckets : List (Bytes × BoltBucket)
deriving DecidableEq

/-- Modelled from the spec: tx.Bucket — resolve a bucket by name, nil (none)
when it was never created. -/
def getBkt (name : Bytes) : List (Bytes × BoltBucket) → Option BoltBucket
  | [] => none
  | (n, b) :: rest => if name = n then some b else getBkt name rest

/-- Replace the named bucket's state. -/
def setBkt (name : Bytes) (nb : BoltBucket) : List (Bytes × BoltBucket) → List (Bytes × BoltBucket)
  | [] => []
  | (n, b) :: rest => if name = n then (n, nb) :: rest else (n, b) :: setBkt name nb rest

/-- Modelled from the spec: tx.DeleteBucket removes the bucket and all
contained keys. -/
def rmBkt (name : Bytes) (l : List (Bytes × BoltBucket)) : List (Bytes × BoltBucket) :=
  l.filter (fun nb => nb.1 != name)

def DB.lookupBucket (db : DB) (name : Bytes) : Option BoltBucket :=
  getBkt name db.buckets

def DB.updateBucket (db : DB) (name : Bytes) (nb : BoltBucket) : DB :=
  ⟨setBkt name nb db.buckets⟩

/-- itob from src/ubolt.go: binary.BigEndian.PutUint64 into 8 bytes. -/
def itob (v : Nat) : Bytes :=
  [v / 2 ^ 56 % 256, v / 2 ^ 48 % 256, v / 2 ^ 40 % 256, v / 2 ^ 32 % 256,
   v / 2 ^ 24 % 256, v / 2 ^ 16 % 256, v / 2 ^ 8 % 256, v % 256]

/-- Database.PutV from src/ubolt.go: inside one read-write transaction,
resolve the bucket (ErrBucketNotFound if nil), advance the bucket's sequence
counter (NextSequence: the uint64 counter is incremented and the new value
returned), encode it with itob and put the value under that key. -/
def DB.PutV (db : DB) (bucket val : Bytes) : Except UErr Bytes × DB :=
  match db.lookupBucket bucket with
  | none => (.error (.bucketNotFound bucket), db)
  | some b =>
    let id := (b.seq + 1) % 2 ^ 64
    let key := itob id
    (.ok key, db.updateBucket bucket ⟨putPairs key val b.pairs, id⟩)

/-- The error component of a PutV result, as in `_, err := db.PutV(...)`. -/
def errPart : Except UErr Bytes → Option UErr
  | .error e => some e
  | .ok _ => none

/-- Database.Put from src/ubolt.go. The key is an Option: `none` is Go's nil
slice ("no key supplied"), distinct from `some []` (a supplied zero-length
key). A nil key delegates to PutV and returns its error; otherwise the
bucket is resolved (ErrBucketNotFound if nil) and the value written under
the explicit key. -/
def DB.Put (db : DB) (bucket : Bytes) (key : Option Bytes) (val : Bytes) : Option UErr × DB :=
  match key with
  | none =>
    let r := db.PutV bucket val
    (errPart r.1, r.2)
  | some k =>
    match db.lookupBucket bucket with
    | none => (some (.bucketNotFound bucket), db)
    | some b => (none, db.updateBucket bucket ⟨putPairs k val b.pairs, b.seq⟩)

/-- Database.GetE from src/ubolt.go: resolve the bucket (ErrBucketNotFound if
nil), engine Get (ErrKeyNotFound if nil), then `value = append(value, data...)`
on a nil-initialised slice — which stays Go-nil when data is empty, so a
stored empty value yields `.ok none`. -/
def DB.GetE (db : DB) (bucket key : Bytes) : Except UErr (Option Bytes) :=
  match db.lookupBucket bucket with
  | none => .error (.bucketNotFound bucket)
  | some b =>
    match getPair key b.pairs with
    | none => .error (.keyNotFound bucket key)
    | some dat => .ok (if dat = [] then none else some dat)

/-- Byte-string content of a Go slice result; Go-nil has empty content. -/
def goBytes : Option Bytes → Bytes
  | none => []
  | some bs => bs

/-- Database.Get from src/ubolt.go: `value, _ = db.GetE(...)` — the error is
discarded and a nil value returned in every failure case. -/
def DB.Get (db : DB) (bucket key : Bytes) : Option Bytes :=
  match db.GetE bucket key with
  | .ok v => v
  | .error _ => none

/-- Database.Delete from src/ubolt.go: resolve the bucket (ErrBucketNotFound
if nil) then engine delete, which succeeds whether or not the key exists. -/
def DB.Delete (db : DB) (bucket key : Bytes) : Option UErr × DB :=
  match db.lookupBucket bucket with
  | none => (some (.bucketNotFound bucket), db)
  | some b => (none, db.updateBucket bucket ⟨delPairs key b.pairs, b.seq⟩)

/-- Database.DeleteBucket from src/ubolt.go: forwards straight to
tx.DeleteBucket without resolving the bucket itself, so a missing bucket
surfaces the engine's own sentinel errors.New("bucket not found") — not the
layer's typed ErrBucketNotFound. -/
def DB.DeleteBucket (db : DB) (bucket : Bytes) : Option UErr × DB :=
  match db.lookupBucket bucket with
  | none => (some (.engineErr "bucket not found"), db)
  | some _ => (none, ⟨rmBkt bucket db.buckets⟩)

/-- Database.GetKeysE from src/ubolt.go: resolve the bucket (ErrBucketNotFound
if nil) then walk the cursor from First to the end collecting keys in order. -/
def DB.GetKeysE (db : DB) (bucket : Bytes) : Except UErr (List Bytes) :=
  match db.lookupBucket bucket with
  | none => .error (.bucketNotFound bucket)
  | some b => .ok (b.pairs.map Prod.fst)

/-- Database.GetKeys from src/ubolt.go: `keys, _ = db.GetKeysE(bucket)` — the
error is discarded and a nil (empty) list returned on failure. -/
def DB.GetKeys (db : DB) (bucket : Bytes) : List Bytes :=
  match db.GetKeysE bucket with
  | .ok ks => ks
  | .error _ => []

/-- Run a Go callback `func(k, v []byte) error` over pairs in order, stopping
at the first error, exactly as bbolt's ForEach and the wrapper's Scan loop do.
The callback may close over mutable state, modelled by threading σ. -/
def runVisits {σ : Type} (fn : σ → Bytes → Bytes → σ × Option UErr) : σ → List (Bytes × Bytes) → σ × Option UErr
  | s, [] => (s, none)
  | s, (k, v) :: rest =>
    match fn s k v with
    | (s2, some e) => (s2, some e)
    | (s2, none) => runVisits fn s2 rest

/-- Database.ForEach from src/ubolt.go: resolve the bucket (ErrBucketNotFound
if nil) then b.ForEach(fn) over every pair in key order. -/
def DB.ForEach {σ : Type} (db : DB) (bucket : Bytes) (fn : σ → Bytes → Bytes → σ × Option UErr) (s : σ) : σ × Option UErr :=
  match db.lookupBucket bucket with
  | none => (s, some (.bucketNotFound bucket))
  | some b => runVisits fn s b.pairs

/-- The pairs visited by the Scan loop of src/ubolt.go: `c.Seek(prefix)`
positions the cursor at the first key greater-than-or-equal to the leading
byte-string, then the loop walks forward while the key still starts with it. -/
def scanRange (pre : Bytes) (pairs : List (Bytes × Bytes)) : List (Bytes × Bytes) :=
  (pairs.dropWhile (fun kv => lexLt kv.1 pre)).takeWhile (fun kv => startsWith kv.1 pre)

/-- Database.Scan from src/ubolt.go: resolve the bucket (ErrBucketNotFound if
nil) then run the callback over the cursor walk bounded by the leading
byte-string, stopping at the first callback error. -/
def DB.Scan {σ : Type} (db : DB) (bucket pre : Bytes) (fn : σ → Bytes → Bytes → σ × Option UErr) (s : σ) : σ × Option UErr :=
  match db.lookupBucket bucket with
  | none => (s, some (.bucketNotFound bucket))
  | some b => runVisits fn s (scanRange pre b.pairs)

/-- Database.Encode from src/ubolt.go: gob-encode the structured value, and
on a codec error return it without attempting the Put. The gob codec is
external to this repository, so the serialization outcome for the structured
value is passed in as `encoded`. -/
def DB.Encode (db : DB) (bucket : Bytes) (key : Option Bytes) (encoded : Except String Bytes) : Option UErr × DB :=
  match encoded with
  | .error e => (some (.codecErr e), db)
  | .ok bs => db.Put bucket key bs

/-- Big-endian numeric value of a byte string. -/
def beVal : Bytes → Nat
  | [] => 0
  | a :: as => a * 256 ^ as.length + beVal as

/-! Helper lemmas about the engine model. -/

theorem getBkt_setBkt (name : Bytes) (nb b : BoltBucket) (l : List (Bytes × BoltBucket))
    (h : getBkt name l = some b) : getBkt name (setBkt name nb l) = some nb := by
  induction l with
  | nil => simp [getBkt] at h
  | cons x rest ih =>
    obtain ⟨n, bb⟩ := x
    by_cases hn : name = n
    · simp [getBkt, setBkt, hn]
    · simp only [getBkt, setBkt, hn, if_false, if_neg hn] at h ⊢
      exact ih h

theorem setBkt_self (name : Bytes) (b : BoltBucket) (l : List (Bytes × BoltBucket))
    (h : getBkt name l = some b) : setBkt name b l = l := by
  induction l with
  | nil => rfl
  | cons x rest ih =>
    obtain ⟨n, bb⟩ := x
    by_cases hn : name = n
    · simp only [getBkt, if_pos hn, Option.some.injEq] at h
      simp [setBkt, hn, h]
    · simp only [getBkt, if_neg hn] at h
      simp [setBkt, hn, ih h]

theorem lexLt_irrefl (k : Bytes) : lexLt k k = false := by
  induction k with
  | nil => rfl
  | cons a as ih => simp [lexLt, Nat.lt_irrefl, ih]

theorem getPair_putPairs (key val : Bytes) (l : List (Bytes × Bytes)) :
    getPair key (putPairs key val l) = some val := by
  induction l with
  | nil => simp [putPairs, getPair]
  | cons x rest ih =>
    obtain ⟨k, v⟩ := x
    by_cases hlt : lexLt key k
    · simp [putPairs, hlt, getPair]
    · by_cases he : key = k
      · simp [putPairs, hlt, he, getPair, lexLt_irrefl]
      · simp [putPairs, hlt, he, getPair, ih]

theorem delPairs_absent (key : Bytes) (l : List (Bytes × Bytes))
    (h : getPair key l = none) : delPairs key l = l := by
  induction l with
  | nil => rfl
  | cons x rest ih =>
    obtain ⟨k, v⟩ := x
    by_cases he : key = k
    · simp [getPair, he] at h
    · simp only [getPair, if_neg he] at h
      have hk : ((k, v).1 != key) = true := by
        simp only [bne_iff_ne, ne_eq]
        exact fun hh => he hh.symm
      have ht := ih h
      simp only [delPairs] at ht
      simp [delPairs, List.filter_cons, hk, ht]

theorem lexLt_nil (k : Bytes) : lexLt k [] = false := by
  cases k <;> rfl

theorem startsWith_nil (k : Bytes) : startsWith k [] = true := by
  cases k <;> rfl

theorem lexLt_trans : ∀ {a b c : Bytes}, lexLt a b = true → lexLt b c = true → lexLt a c = true := by
  intro a
  induction a with
  | nil =>
    intro b c hab hbc
    cases b with
    | nil => simp [lexLt] at hab
    | cons y ys =>
      cases c with
      | nil => simp [lexLt] at hbc
      | cons z zs => simp [lexLt]
  | cons x xs ih =>
    intro b c hab hbc
    cases b with
    | nil => simp [lexLt] at hab
    | cons y ys =>
      cases c with
      | nil => simp [lexLt] at hbc
      | cons z zs =>
        by_cases h1 : x < y
        · by_cases h2 : y < z
          · simp [lexLt, Nat.lt_trans h1 h2]
          · by_cases h3 : z < y
            · simp [lexLt, h2, h3] at hbc
            · have hyz : y = z := Nat.le_antisymm (Nat.le_of_not_lt h3) (Nat.le_of_not_lt h2)
              subst hyz
              simp [lexLt, h1]
        · by_cases h1b : y < x
          · simp [lexLt, h1, h1b] at hab
          · have hxy : x = y := Nat.le_antisymm (Nat.le_of_not_lt h1b) (Nat.le_of_not_lt h1)
            subst hxy
            simp only [lexLt, Nat.lt_irrefl, if_false] at hab
            by_cases h2 : x < z
            · simp [lexLt, h2]
            · by_cases h3 : z < x
              · simp [lexLt, h2, h3] at hbc
              · have hxz : x = z := Nat.le_antisymm (Nat.le_of_not_lt h3) (Nat.le_of_not_lt h2)
                subst hxz
                simp only [lexLt, Nat.lt_irrefl, if_false] at hbc ⊢
                exact ih hab hbc

theorem lexLt_of_startsWith : ∀ {k p : Bytes}, startsWith k p = true → lexLt k p = false := by
  intro k p
  induction p generalizing k with
  | nil => intro _; exact lexLt_nil k
  | cons b bs ih =>
    intro h
    cases k with
    | nil => simp [startsWith] at h
    | cons a as =>
      simp only [startsWith, Bool.and_eq_true, beq_iff_eq] at h
      obtain ⟨hab, h2⟩ := h
      subst hab
      simp only [lexLt, Nat.lt_irrefl, if_false]
      exact ih h2

theorem startsWith_false_of_gt :
    ∀ {p k0 k1 : Bytes}, lexLt k0 p = false → startsWith k0 p = false →
      lexLt k0 k1 = true → startsWith k1 p = false := by
  intro p
  induction p with
  | nil =>
    intro k0 k1 h1 h2 _
    rw [startsWith_nil] at h2
    cases h2
  | cons a pp ih =>
    intro k0 k1 h1 h2 h3
    cases k0 with
    | nil => simp [lexLt] at h1
    | cons b k0t =>
      cases k1 with
      | nil => simp [lexLt] at h3
      | cons c k1t =>
        by_cases hba : b < a
        · simp [lexLt, hba] at h1
        · by_cases hab : a < b
          · by_cases hbc : b < c
            · have hac : a < c := Nat.lt_trans hab hbc
              simp [startsWith, Nat.ne_of_gt hac]
            · by_cases hcb : c < b
              · simp [lexLt, hbc, hcb] at h3
              · have hbceq : b = c := Nat.le_antisymm (Nat.le_of_not_lt hcb) (Nat.le_of_not_lt hbc)
                subst hbceq
                simp [startsWith, Nat.ne_of_gt hab]
          · have hbaeq : b = a := Nat.le_antisymm (Nat.le_of_not_lt hab) (Nat.le_of_not_lt hba)
            subst hbaeq
            simp only [lexLt, Nat.lt_irrefl, if_false] at h1
            simp only [startsWith, beq_self_eq_true, Bool.true_and] at h2
            by_cases hbc : b < c
            · simp [startsWith, Nat.ne_of_gt hbc]
            · by_cases hcb : c < b
              · simp [lexLt, hbc, hcb] at h3
              · have hbceq : b = c := Nat.le_antisymm (Nat.le_of_not_lt hcb) (Nat.le_of_not_lt hbc)
                subst hbceq
                simp only [lexLt, Nat.lt_irrefl, if_false] at h3
                simp only [startsWith, beq_self_eq_true, Bool.true_and]
                exact ih h1 h2 h3

theorem takeWhile_eq_filter_of_ge (p : Bytes) :
    ∀ (l : List (Bytes × Bytes)),
      List.Pairwise (fun x y : Bytes × Bytes => lexLt x.1 y.1 = true) l →
      (∀ kv ∈ l, lexLt kv.1 p = false) →
      l.takeWhile (fun kv => startsWith kv.1 p) = l.filter (fun kv => startsWith kv.1 p) := by
  intro l
  induction l with
  | nil => intro _ _; rfl
  | cons x xs ih =>
    intro hp hge
    rw [List.pairwise_cons] at hp
    obtain ⟨hx, hxs⟩ := hp
    by_cases hsw : startsWith x.1 p = true
    · simp only [List.takeWhile_cons, List.filter_cons, hsw, if_true, List.cons.injEq, true_and]
      exact ih hxs (fun kv hkv => hge kv (List.mem_cons_of_mem _ hkv))
    · have hswf : startsWith x.1 p = false := by
        cases hb : startsWith x.1 p
        · rfl
        · exact absurd hb hsw
      simp only [List.takeWhile_cons, List.filter_cons, hswf, Bool.false_eq_true, if_false]
      symm
      rw [List.filter_eq_nil_iff]
      intro kv hkv
      have h3 : lexLt x.1 kv.1 = true := hx kv hkv
      have h1 : lexLt x.1 p = false := hge x (List.mem_cons_self _ _)
      simp only [Bool.not_eq_true]
      exact startsWith_false_of_gt h1 hswf h3

theorem scanRange_eq_filter (p : Bytes) :
    ∀ (l : List (Bytes × Bytes)),
      List.Pairwise (fun x y : Bytes × Bytes => lexLt x.1 y.1 = true) l →
      scanRange p l = l.filter (fun kv => startsWith kv.1 p) := by
  intro l
  induction l with
  | nil => intro _; rfl
  | cons x xs ih =>
    intro hp
    rw [List.pairwise_cons] at hp
    obtain ⟨hx, hxs⟩ := hp
    by_cases hlt : lexLt x.1 p = true
    · have hsw : startsWith x.1 p = false := by
        cases hb : startsWith x.1 p
        · rfl
        · rw [lexLt_of_startsWith hb] at hlt
          cases hlt
      have hrest := ih hxs
      simp only [scanRange, List.dropWhile_cons, hlt, if_true] at hrest ⊢
      simp only [List.filter_cons, hsw, Bool.false_eq_true, if_false]
      exact hrest
    · have hltf : lexLt x.1 p = false := by
        cases hb : lexLt x.1 p
        · rfl
        · exact absurd hb hlt
      simp only [scanRange, List.dropWhile_cons, hltf, Bool.false_eq_true, if_false]
      apply takeWhile_eq_filter_of_ge
      · exact List.pairwise_cons.mpr ⟨hx, hxs⟩
      · intro kv hkv
        rcases List.mem_cons.mp hkv with h | h
        · rw [h]
          exact hltf
        · have h3 := hx kv h
          cases hb : lexLt kv.1 p
          · rfl
          · have := lexLt_trans h3 hb
            rw [hltf] at this
            cases this

theorem runVisits_none {σ : Type} (fn : σ → Bytes → Bytes → σ × Option UErr)
    (hfn : ∀ t k v, (fn t k v).2 = none) :
    ∀ (s : σ) (l : List (Bytes × Bytes)), (runVisits fn s l).2 = none := by
  intro s l
  induction l generalizing s with
  | nil => rfl
  | cons x rest ih =>
    obtain ⟨k, v⟩ := x
    have h := hfn s k v
    rcases hfv : fn s k v with ⟨s2, o⟩
    rw [hfv] at h
    simp only at h
    subst h
    simp only [runVisits, hfv]
    exact ih s2

theorem beVal_lt (l : Bytes) (h : ∀ x ∈ l, x < 256) : beVal l < 256 ^ l.length := by
  induction l with
  | nil => simp [beVal]
  | cons a as ih =>
    have ha : a < 256 := h a (List.mem_cons_self _ _)
    have has := ih (fun x hx => h x (List.mem_cons_of_mem _ hx))
    simp only [beVal, List.length_cons, pow_succ]
    nlinarith [has, ha]

theorem beVal_itob (v : Nat) (h : v < 2 ^ 64) : beVal (itob v) = v := by
  simp only [itob, beVal, List.length_cons, List.length_nil]
  norm_num
  omega

theorem itob_bytes_lt (v : Nat) : ∀ x ∈ itob v, x < 256 := by
  intro x hx
  simp only [itob, List.mem_cons, List.not_mem_nil, or_false] at hx
  rcases hx with h | h | h | h | h | h | h | h <;> subst h <;> omega

theorem lexLt_of_beVal :
    ∀ {xs ys : Bytes}, xs.length = ys.length → (∀ y ∈ ys, y < 256) →
      beVal xs < beVal ys → lexLt xs ys = true := by
  intro xs
  induction xs with
  | nil =>
    intro ys hlen hb hv
    cases ys with
    | nil => simp [beVal] at hv
    | cons y ys2 => simp at hlen
  | cons a as ih =>
    intro ys hlen hb hv
    cases ys with
    | nil => simp at hlen
    | cons b bs =>
      simp only [List.length_cons, Nat.add_right_cancel_iff] at hlen
      by_cases hab : a < b
      · simp [lexLt, hab]
      · by_cases hba : b < a
        · exfalso
          have hbs : beVal bs < 256 ^ bs.length :=
            beVal_lt bs (fun x hx => hb x (List.mem_cons_of_mem _ hx))
          simp only [beVal] at hv
          rw [hlen] at hv
          nlinarith [hbs, hba, hv]
        · have hab2 : a = b := Nat.le_antisymm (Nat.le_of_not_lt hba) (Nat.le_of_not_lt hab)
          subst hab2
          simp only [beVal] at hv
          rw [hlen] at hv
          have hv2 : beVal as < beVal bs := Nat.lt_of_add_lt_add_left hv
          simp only [lexLt, Nat.lt_irrefl, if_false]
          exact ih hlen (fun x hx => hb x (List.mem_cons_of_mem _ hx)) hv2

theorem lexLt_itob {m n : Nat} (hmn : m < n) (hn : n < 2 ^ 64) : lexLt (itob m) (itob n) = true := by
  apply lexLt_of_beVal
  · simp [itob]
  · exact itob_bytes_lt n
  · rw [beVal_itob m (Nat.lt_trans hmn hn), beVal_itob n hn]
    exact hmn

theorem takeWhile_startsWith_nil (l : List (Bytes × Bytes)) :
    l.takeWhile (fun kv => startsWith kv.1 []) = l := by
  induction l with
  | nil => rfl
  | cons x xs ih => simp [List.takeWhile_cons, startsWith_nil, ih]

theorem scanRange_nil_pre (l : List (Bytes × Bytes)) : scanRange [] l = l := by
  cases l with
  | nil => rfl
  | cons x xs =>
    simp only [scanRange, List.dropWhile_cons, lexLt_nil, Bool.false_eq_true, if_false]
    exact takeWhile_startsWith_nil (x :: xs)

/-! The claims. -/

/-- Claim C1: for every byte-string key k, every byte-string value v and every
existing bucket, Put followed by GetE returns v with no error. -/
theorem c1_put_getE_roundtrip (db : DB) (bucket k v : Bytes) (b : BoltBucket)
    (h : db.lookupBucket bucket = some b) :
    (db.Put bucket (some k) v).1 = none ∧
    ((db.Put bucket (some k) v).2.GetE bucket k).map goBytes = .ok v := by
  have hput : db.Put bucket (some k) v
      = (none, db.updateBucket bucket ⟨putPairs k v b.pairs, b.seq⟩) := by
    simp only [DB.Put, h]
  rw [hput]
  refine ⟨rfl, ?_⟩
  have hb : (db.updateBucket bucket ⟨putPairs k v b.pairs, b.seq⟩).lookupBucket bucket
      = some ⟨putPairs k v b.pairs, b.seq⟩ :=
    getBkt_setBkt bucket _ b db.buckets h
  simp only [DB.GetE, hb, getPair_putPairs]
  by_cases hv : v = []
  · subst hv
    simp [goBytes, Except.map]
  · simp [hv, goBytes, Except.map]

/-- Witness for C1 at a concrete store. -/
theorem c1_put_getE_roundtrip_witness :
    (DB.Put ⟨[([1], ⟨[], 0⟩)]⟩ [1] (some [2]) [3, 4]).1 = none ∧
    ((DB.Put ⟨[([1], ⟨[], 0⟩)]⟩ [1] (some [2]) [3, 4]).2.GetE [1] [2]).map goBytes = .ok [3, 4] :=
  c1_put_getE_roundtrip ⟨[([1], ⟨[], 0⟩)]⟩ [1] [2] [3, 4] ⟨[], 0⟩ (by decide)

/-- Claim C2: Put with the nil "no key supplied" sentinel does not write to an
explicit key but auto-generates one exactly as PutV does (same error, same
state change, counter advanced), while Put with a supplied zero-length key
writes to the explicit empty key without touching the sequence counter. -/
theorem c2_put_sentinel_vs_empty_key (db : DB) (bucket v : Bytes) (b : BoltBucket)
    (h : db.lookupBucket bucket = some b) :
    (∀ (d : DB) (bkt w : Bytes),
      DB.Put d bkt none w = (errPart (DB.PutV d bkt w).1, (DB.PutV d bkt w).2)) ∧
    (db.Put bucket none v).2.lookupBucket bucket
      = some ⟨putPairs (itob ((b.seq + 1) % 2 ^ 64)) v b.pairs, (b.seq + 1) % 2 ^ 64⟩ ∧
    (db.Put bucket (some []) v).1 = none ∧
    (db.Put bucket (some []) v).2.lookupBucket bucket = some ⟨putPairs [] v b.pairs, b.seq⟩ := by
  refine ⟨fun d bkt w => rfl, ?_, ?_, ?_⟩
  · simp only [DB.Put, DB.PutV, h, errPart]
    exact getBkt_setBkt bucket _ b db.buckets h
  · simp only [DB.Put, h]
  · simp only [DB.Put, h]
    exact getBkt_setBkt bucket _ b db.buckets h

/-- Witness for C2 at a concrete store. -/
theorem c2_put_sentinel_vs_empty_key_witness :
    (∀ (d : DB) (bkt w : Bytes),
      DB.Put d bkt none w = (errPart (DB.PutV d bkt w).1, (DB.PutV d bkt w).2)) ∧
    (DB.Put ⟨[([1], ⟨[], 0⟩)]⟩ [1] none [5]).2.lookupBucket [1]
      = some ⟨putPairs (itob ((0 + 1) % 2 ^ 64)) [5] [], (0 + 1) % 2 ^ 64⟩ ∧
    (DB.Put ⟨[([1], ⟨[], 0⟩)]⟩ [1] (some []) [5]).1 = none ∧
    (DB.Put ⟨[([1], ⟨[], 0⟩)]⟩ [1] (some []) [5]).2.lookupBucket [1]
      = some ⟨putPairs [] [5] [], 0⟩ :=
  c2_put_sentinel_vs_empty_key ⟨[([1], ⟨[], 0⟩)]⟩ [1] [5] ⟨[], 0⟩ (by decide)

/-- Claim C3: each successful PutV returns the bucket's advanced sequence
counter encoded by itob as a fixed-width 8-byte big-endian key; the first
value issued on a fresh bucket is itob 1, 0 is never issued, and two
sequential successful calls return keys that increase strictly both
numerically and in byte-lexicographic order (while the uint64 counter does
not wrap). -/
theorem c3_putv_autoincrement_keys (db : DB) (bucket v w : Bytes) (b : BoltBucket)
    (h : db.lookupBucket bucket = some b) (hs : b.seq + 2 < 2 ^ 64) :
    (db.PutV bucket v).1 = .ok (itob (b.seq + 1)) ∧
    (db.PutV bucket v).2.lookupBucket bucket
      = some ⟨putPairs (itob (b.seq + 1)) v b.pairs, b.seq + 1⟩ ∧
    ((db.PutV bucket v).2.PutV bucket w).1 = .ok (itob (b.seq + 2)) ∧
    b.seq + 1 ≠ 0 ∧
    b.seq + 1 < b.seq + 2 ∧
    lexLt (itob (b.seq + 1)) (itob (b.seq + 2)) = true ∧
    (b.seq = 0 → (db.PutV bucket v).1 = .ok (itob 1)) := by
  have hm1 : (b.seq + 1) % 2 ^ 64 = b.seq + 1 := Nat.mod_eq_of_lt (by omega)
  have hm2 : (b.seq + 1 + 1) % 2 ^ 64 = b.seq + 2 := Nat.mod_eq_of_lt (by omega)
  have hr1 : (db.PutV bucket v).1 = .ok (itob (b.seq + 1)) := by
    simp only [DB.PutV, h, hm1]
  have hb2 : (db.PutV bucket v).2.lookupBucket bucket
      = some ⟨putPairs (itob (b.seq + 1)) v b.pairs, b.seq + 1⟩ := by
    simp only [DB.PutV, h, hm1]
    exact getBkt_setBkt bucket _ b db.buckets h
  refine ⟨hr1, hb2, ?_, by omega, by omega, lexLt_itob (by omega) hs,
    fun h0 => by rw [hr1, h0]⟩
  obtain ⟨d2, hd2⟩ : ∃ d2, (db.PutV bucket v).2 = d2 := ⟨_, rfl⟩
  rw [hd2] at hb2 ⊢
  simp only [DB.PutV, hb2, hm2]

/-- Witness for C3 at a concrete store with a fresh sequence counter. -/
theorem c3_putv_autoincrement_keys_witness :
    (DB.PutV ⟨[([1], ⟨[], 0⟩)]⟩ [1] [5]).1 = .ok (itob (0 + 1)) ∧
    (DB.PutV ⟨[([1], ⟨[], 0⟩)]⟩ [1] [5]).2.lookupBucket [1]
      = some ⟨putPairs (itob (0 + 1)) [5] [], 0 + 1⟩ ∧
    ((DB.PutV ⟨[([1], ⟨[], 0⟩)]⟩ [1] [5]).2.PutV [1] [6]).1 = .ok (itob (0 + 2)) ∧
    (0 : Nat) + 1 ≠ 0 ∧
    (0 : Nat) + 1 < 0 + 2 ∧
    lexLt (itob (0 + 1)) (itob (0 + 2)) = true ∧
    ((0 : Nat) = 0 → (DB.PutV ⟨[([1], ⟨[], 0⟩)]⟩ [1] [5]).1 = .ok (itob 1)) :=
  c3_putv_autoincrement_keys ⟨[([1], ⟨[], 0⟩)]⟩ [1] [5] [6] ⟨[], 0⟩ (by decide) (by norm_num)

/-- Claim C5 counterexample: DeleteBucket on a missing bucket does not fail
with the layer's ErrBucketNotFound: it surfaces the engine's plain "bucket
not found" sentinel, which errors.Is does not match against the layer's
ErrBucketNotFound. -/
theorem c5_counterexample :
    DB.DeleteBucket ⟨[]⟩ [98] = (some (.engineErr "bucket not found"), ⟨[]⟩) ∧
    UErr.isBucketMissing (.engineErr "bucket not found") = false ∧
    errorsIs (.engineErr "bucket not found") (.bucketNotFound [98]) = false := by
  refine ⟨rfl, rfl, ?_⟩
  simp [errorsIs]

/-- Claim C5 amended: DeleteBucket on a missing bucket fails with the
engine's "bucket not found" sentinel passed through unwrapped; the error is
not the layer's ErrBucketNotFound and errors.Is against ErrBucketNotFound
reports false, and the store is left unchanged. -/
theorem c5_deletebucket_engine_sentinel (db : DB) (name : Bytes)
    (h : db.lookupBucket name = none) :
    db.DeleteBucket name = (some (.engineErr "bucket not found"), db) ∧
    UErr.isBucketMissing (.engineErr "bucket not found") = false ∧
    errorsIs (.engineErr "bucket not found") (.bucketNotFound name) = false := by
  refine ⟨by simp [DB.DeleteBucket, h], rfl, ?_⟩
  simp [errorsIs]

/-- Witness for the amended C5 at a concrete empty store. -/
theorem c5_deletebucket_engine_sentinel_witness :
    DB.DeleteBucket ⟨[]⟩ [99] = (some (.engineErr "bucket not found"), ⟨[]⟩) ∧
    UErr.isBucketMissing (.engineErr "bucket not found") = false ∧
    errorsIs (.engineErr "bucket not found") (.bucketNotFound [99]) = false :=
  c5_deletebucket_engine_sentinel ⟨[]⟩ [99] (by decide)

/-- Claim C6: on an existing bucket with keys in byte-lexicographic order,
Scan invokes the callback on exactly the pairs whose key starts with the
probe byte-string, in that order; with a never-failing callback the result
is nil, and a probe matching nothing yields zero visits and success. -/
theorem c6_scan_visits_filter {σ : Type} (db : DB) (bucket pre : Bytes) (b : BoltBucket)
    (fn : σ → Bytes → Bytes → σ × Option UErr) (s : σ)
    (h : db.lookupBucket bucket = some b)
    (hsort : List.Pairwise (fun x y : Bytes × Bytes => lexLt x.1 y.1 = true) b.pairs)
    (hfn : ∀ t kk vv, (fn t kk vv).2 = none) :
    scanRange pre b.pairs = b.pairs.filter (fun kv => startsWith kv.1 pre) ∧
    db.Scan bucket pre fn s = runVisits fn s (b.pairs.filter (fun kv => startsWith kv.1 pre)) ∧
    (db.Scan bucket pre fn s).2 = none ∧
    List.Pairwise (fun x y : Bytes × Bytes => lexLt x.1 y.1 = true)
      (b.pairs.filter (fun kv => startsWith kv.1 pre)) ∧
    (b.pairs.filter (fun kv => startsWith kv.1 pre) = [] → db.Scan bucket pre fn s = (s, none)) := by
  have hf := scanRange_eq_filter pre b.pairs hsort
  have hscan : db.Scan bucket pre fn s
      = runVisits fn s (b.pairs.filter (fun kv => startsWith kv.1 pre)) := by
    simp only [DB.Scan, h, hf]
  refine ⟨hf, hscan, ?_, ?_, ?_⟩
  · rw [hscan]
    exact runVisits_none fn hfn s _
  · exact List.Pairwise.sublist (List.filter_sublist _) hsort
  · intro hnil
    rw [hscan, hnil]
    rfl

/-- Witness for C6 at a concrete sorted bucket with matching and
non-matching keys. -/
theorem c6_scan_visits_filter_witness :
    scanRange [1] [([1, 1], [9]), ([1, 2], [8]), ([2], [7])]
      = List.filter (fun kv => startsWith kv.1 [1]) [([1, 1], [9]), ([1, 2], [8]), ([2], [7])] ∧
    DB.Scan ⟨[([1], ⟨[([1, 1], [9]), ([1, 2], [8]), ([2], [7])], 0⟩)]⟩ [1] [1]
        (fun (t : List (Bytes × Bytes)) kk vv => (t ++ [(kk, vv)], none)) []
      = runVisits (fun (t : List (Bytes × Bytes)) kk vv => (t ++ [(kk, vv)], none)) []
          (List.filter (fun kv => startsWith kv.1 [1]) [([1, 1], [9]), ([1, 2], [8]), ([2], [7])]) ∧
    (DB.Scan ⟨[([1], ⟨[([1, 1], [9]), ([1, 2], [8]), ([2], [7])], 0⟩)]⟩ [1] [1]
        (fun (t : List (Bytes × Bytes)) kk vv => (t ++ [(kk, vv)], none)) []).2 = none ∧
    List.Pairwise (fun x y : Bytes × Bytes => lexLt x.1 y.1 = true)
      (List.filter (fun kv => startsWith kv.1 [1]) [([1, 1], [9]), ([1, 2], [8]), ([2], [7])]) ∧
    (List.filter (fun kv => startsWith kv.1 [1]) [([1, 1], [9]), ([1, 2], [8]), ([2], [7])] = [] →
      DB.Scan ⟨[([1], ⟨[([1, 1], [9]), ([1, 2], [8]), ([2], [7])], 0⟩)]⟩ [1] [1]
        (fun (t : List (Bytes × Bytes)) kk vv => (t ++ [(kk, vv)], none)) [] = ([], none)) :=
  c6_scan_visits_filter ⟨[([1], ⟨[([1, 1], [9]), ([1, 2], [8]), ([2], [7])], 0⟩)]⟩ [1] [1]
    ⟨[([1, 1], [9]), ([1, 2], [8]), ([2], [7])], 0⟩
    (fun (t : List (Bytes × Bytes)) kk vv => (t ++ [(kk, vv)], none)) []
    (by decide) (by decide) (fun _ _ _ => rfl)

/-- Claim C7: Scan with the empty probe byte-string is exactly ForEach: the
same callback invocations in the same order, the same final callback state
and the same result, including propagation of a callback error. -/
theorem c7_scan_empty_eq_foreach {σ : Type} (db : DB) (bucket : Bytes)
    (fn : σ → Bytes → Bytes → σ × Option UErr) (s : σ) :
    db.Scan bucket [] fn s = db.ForEach bucket fn s := by
  cases hb : db.lookupBucket bucket with
  | none => simp [DB.Scan, DB.ForEach, hb]
  | some b => simp [DB.Scan, DB.ForEach, hb, scanRange_nil_pre]

/-- Claim C4: every checked operation against a never-created bucket returns
ErrBucketNotFound without writing anything or invoking the callback, while
the unchecked Get and GetKeys return the nil sentinel with no error. -/
theorem c4_missing_bucket {σ : Type} (db : DB) (name k v pre : Bytes)
    (fn : σ → Bytes → Bytes → σ × Option UErr) (s : σ)
    (h : db.lookupBucket name = none) :
    db.Put name (some k) v = (some (.bucketNotFound name), db) ∧
    db.Put name none v = (some (.bucketNotFound name), db) ∧
    db.PutV name v = (.error (.bucketNotFound name), db) ∧
    db.GetE name k = .error (.bucketNotFound name) ∧
    db.Delete name k = (some (.bucketNotFound name), db) ∧
    db.GetKeysE name = .error (.bucketNotFound name) ∧
    db.Scan name pre fn s = (s, some (.bucketNotFound name)) ∧
    db.ForEach name fn s = (s, some (.bucketNotFound name)) ∧
    db.Get name k = none ∧
    db.GetKeys name = [] := by
  refine ⟨?_, ?_, ?_, ?_, ?_, ?_, ?_, ?_, ?_, ?_⟩ <;>
    simp [DB.Put, DB.PutV, DB.GetE, DB.Delete, DB.GetKeysE, DB.Scan, DB.ForEach,
      DB.Get, DB.GetKeys, errPart, h]

/-- Witness for C4 at a concrete store. -/
theorem c4_missing_bucket_witness :
    DB.Put ⟨[]⟩ [9] (some [1]) [2] = (some (.bucketNotFound [9]), ⟨[]⟩) ∧
    DB.Put ⟨[]⟩ [9] none [2] = (some (.bucketNotFound [9]), ⟨[]⟩) ∧
    DB.PutV ⟨[]⟩ [9] [2] = (.error (.bucketNotFound [9]), ⟨[]⟩) ∧
    DB.GetE ⟨[]⟩ [9] [1] = .error (.bucketNotFound [9]) ∧
    DB.Delete ⟨[]⟩ [9] [1] = (some (.bucketNotFound [9]), ⟨[]⟩) ∧
    DB.GetKeysE ⟨[]⟩ [9] = .error (.bucketNotFound [9]) ∧
    DB.Scan ⟨[]⟩ [9] [1] (fun (t : Nat) _ _ => (t + 1, none)) 0 = (0, some (.bucketNotFound [9])) ∧
    DB.ForEach ⟨[]⟩ [9] (fun (t : Nat) _ _ => (t + 1, none)) 0 = (0, some (.bucketNotFound [9])) ∧
    DB.Get ⟨[]⟩ [9] [1] = none ∧
    DB.GetKeys ⟨[]⟩ [9] = [] :=
  c4_missing_bucket ⟨[]⟩ [9] [1] [2] [1] (fun (t : Nat) _ _ => (t + 1, none)) 0 (by decide)

/-- Claim C8: deleting an absent key from an existing bucket succeeds and is a
no-op on the whole store, and repeating the delete still succeeds. -/
theorem c8_delete_absent_idempotent (db : DB) (bucket k : Bytes) (b : BoltBucket)
    (h : db.lookupBucket bucket = some b) (hk : getPair k b.pairs = none) :
    db.Delete bucket k = (none, db) ∧
    (db.Delete bucket k).2.Delete bucket k = (none, db) := by
  have h1 : db.Delete bucket k = (none, db) := by
    simp only [DB.Delete, h]
    rw [delPairs_absent k b.pairs hk]
    show (none, db.updateBucket bucket b) = (none, db)
    simp only [DB.updateBucket, setBkt_self bucket b db.buckets h]
  refine ⟨h1, ?_⟩
  rw [h1]
  exact h1

/-- Witness for C8 at a concrete store. -/
theorem c8_delete_absent_idempotent_witness :
    DB.Delete ⟨[([1], ⟨[([2], [7])], 0⟩)]⟩ [1] [3] = (none, ⟨[([1], ⟨[([2], [7])], 0⟩)]⟩) ∧
    (DB.Delete ⟨[([1], ⟨[([2], [7])], 0⟩)]⟩ [1] [3]).2.Delete [1] [3]
      = (none, ⟨[([1], ⟨[([2], [7])], 0⟩)]⟩) :=
  c8_delete_absent_idempotent ⟨[([1], ⟨[([2], [7])], 0⟩)]⟩ [1] [3] ⟨[([2], [7])], 0⟩
    (by decide) (by decide)

/-- Claim C9: a serialization failure makes Encode return the codec error,
skip the Put and leave the store unchanged; codec errors are a kind of their
own, distinct from every storage-layer error. -/
theorem c9_encode_codec_failure (db : DB) (bucket : Bytes) (key : Option Bytes) (e : String) :
    db.Encode bucket key (.error e) = (some (.codecErr e), db) ∧
    UErr.isCodec (.codecErr e) = true ∧
    (∀ bs : Bytes, UErr.codecErr e ≠ .bucketNotFound bs) ∧
    (∀ (bs ks : Bytes), UErr.codecErr e ≠ .keyNotFound bs ks) ∧
    (∀ m : String, UErr.codecErr e ≠ .engineErr m) :=
  ⟨rfl, rfl, fun _ hne => UErr.noConfusion hne, fun _ _ hne => UErr.noConfusion hne,
    fun _ hne => UErr.noConfusion hne⟩

/-- Claim C10: a key stored with an empty value makes the unchecked Get return
the nil absent sentinel, identical to Get's result for a key not present at
all, so a nil Get result does not imply the key is absent. -/
theorem c10_get_empty_indistinguishable (db : DB) (bucket k k2 : Bytes) (b : BoltBucket)
    (h : db.lookupBucket bucket = some b)
    (hk : getPair k b.pairs = some [])
    (hk2 : getPair k2 b.pairs = none) :
    db.Get bucket k = none ∧
    db.Get bucket k2 = none ∧
    db.Get bucket k = db.Get bucket k2 := by
  have h1 : db.Get bucket k = none := by simp [DB.Get, DB.GetE, h, hk]
  have h2 : db.Get bucket k2 = none := by simp [DB.Get, DB.GetE, h, hk2]
  exact ⟨h1, h2, h1.trans h2.symm⟩

/-- Witness for C10 at a concrete store holding an empty value. -/
theorem c10_get_empty_indistinguishable_witness :
    DB.Get ⟨[([1], ⟨[([5], [])], 0⟩)]⟩ [1] [5] = none ∧
    DB.Get ⟨[([1], ⟨[([5], [])], 0⟩)]⟩ [1] [6] = none ∧
    DB.Get ⟨[([1], ⟨[([5], [])], 0⟩)]⟩ [1] [5] = DB.Get ⟨[([1], ⟨[([5], [])], 0⟩)]⟩ [1] [6] :=
  c10_get_empty_indistinguishable ⟨[([1], ⟨[([5], [])], 0⟩)]⟩ [1] [5] [6] ⟨[([5], [])], 0⟩
    (by decide) (by decide) (by decide)

end Ubolt
